import Mathlib

/-!
Shallow embedding of the chain-integrity engine of the Blockchain-Store
repository (src/lib/base/Block.js, the two base Chain variants in
src/lib/base/Chain.js, the alternative Block in src/unnamed/part_003 and
the constants in src/unnamed/part_004), together with theorems settling
the frozen claims about it.

Modelling conventions:
* Machine strings (hashes, salts, serialized data) are Lean `String`s.
* The pluggable digest (`hashingAlgorithm`, default SHA256 over
  `JSON.stringify({data, nonce, previous, salt})`) is a parameter
  `H : HashFn` taking the data, nonce, previous and salt fields.
* A block's `data` is kept in its canonical serialized form (the engine
  treats it as an opaque serializable value; the only operations the
  verified code performs on it are hashing and `JSON.stringify`
  comparisons, both of which factor through that form).
* The mining `while`/`do-while` loops are modelled with explicit fuel:
  `none` corresponds to the loop still running, `some` to the loop having
  exited with the stated nonce.  All claims about mined blocks are
  conditional on the loop having terminated, exactly as in the source.
* JavaScript truthiness of the optional `hash`/`index`/`length` arguments
  and the semantics of `Array.prototype.splice` (including
  `splice(start, undefined)` deleting zero elements, and a negative start
  counting from the end) are modelled explicitly.
-/

deriving instance DecidableEq for Except

/-- `GENESIS_HASH` from src/unnamed/part_004: `(new Array(65)).join('0')`,
i.e. sixty-four `'0'` characters. -/
def GENESIS_HASH : String := String.mk (List.replicate 64 '0')

/-- The `'0000'` difficulty check `s.slice(-4) === '0000'` (JavaScript
`slice(-4)` returns the last four characters, or the whole string when it
is shorter, in which case the comparison is false anyway). -/
def suffixOk (s : String) : Bool := s.takeRight 4 == "0000"

/-- A pluggable hashing algorithm: digest of the `(data, nonce, previous,
salt)` fields, mirroring `hashingAlgorithm({data, nonce, previous, salt})`. -/
def HashFn : Type := String → Nat → String → String → String

/-- A block record: the stored fields `_data`, `_nonce`, `_previous`,
`_salt`, `_hash` of the JavaScript `Block` classes. -/
structure Block where
  data : String
  nonce : Nat
  previous : String
  salt : String
  hash : String
deriving DecidableEq

/-- The mining loop: starting at nonce `n`, find the first nonce whose
digest of `(d, nonce, p, s)` ends in `"0000"`.  `fuel` bounds the search;
`none` means the loop is still running after `fuel` tries (the JavaScript
loop would simply not have terminated yet). -/
def mineFrom (H : HashFn) (d p s : String) (n : Nat) : Nat → Option Nat
  | 0 => none
  | fuel + 1 => if suffixOk (H d n p s) then some n else mineFrom H d p s (n + 1) fuel

/-- `Block.prototype._recomputeHash` of src/lib/base/Block.js: reset the
nonce to `-1`, then repeatedly increment it and rehash until the digest
ends in `"0000"` — i.e. search nonces `0, 1, 2, …`. -/
def recomputeHash (H : HashFn) (fuel : Nat) (b : Block) : Option Block :=
  match mineFrom H b.data b.previous b.salt 0 fuel with
  | some n => some { b with nonce := n, hash := H b.data n b.previous b.salt }
  | none => none

/-- The base `Block` constructor of src/lib/base/Block.js: store the given
`data`, `nonce`, `previous` and `salt` and then call `_recomputeHash`.
The `hash` argument is destructured but never stored; the stored nonce is
overwritten by mining. -/
def mkBlock (H : HashFn) (fuel : Nat) (data : String) (hashArg : Option String)
    (nonce : Nat) (previous salt : String) : Option Block :=
  recomputeHash H fuel
    { data := data, nonce := nonce, previous := previous, salt := salt, hash := "" }

/-- `set data` of the alternative Block in src/unnamed/part_003: store the
new data, then a `do { nonce++; rehash } while (!suffix)` loop — the
search starts at the block's current nonce plus one, not at zero. -/
def setDataP3 (H : HashFn) (fuel : Nat) (b : Block) (d : String) : Option Block :=
  match mineFrom H d b.previous b.salt (b.nonce + 1) fuel with
  | some n => some { b with data := d, nonce := n, hash := H d n b.previous b.salt }
  | none => none

/-- `Block.prototype.verify(quick)` of src/lib/base/Block.js: `quick`
checks only the `"0000"` suffix of the stored hash; the full check
recomputes the digest from the stored fields and compares. -/
def blockVerify (H : HashFn) (quick : Bool) (b : Block) : Bool :=
  if quick then suffixOk b.hash
  else H b.data b.nonce b.previous b.salt == b.hash

/-! ### The chain (ordered variant of src/lib/base/Chain.js) -/

/-- `CHAIN_OPERATIONS` from src/unnamed/part_004. -/
inductive ChainOpType where
  | ADD
  | DELETE
deriving DecidableEq

/-- One entry of the `_lastOperations` pending-operation log:
`{type, blocks}`. -/
structure ChainOp where
  type : ChainOpType
  blocks : List Block
deriving DecidableEq

/-- State of the ordered chain variant: `_blocks`, `_isOrdered` and the
`_lastOperations` pending log.  (The `_autocommit*` fields only feed the
debouncer, whose scheduling branch is unreachable — `_autocommitDebouncer`
starts `null` and is only ever assigned inside `if (this._autocommitDebouncer)`
— and `equals`; they play no role in the verified claims.) -/
structure Chain where
  blocks : List Block
  isOrdered : Bool
  lastOperations : List ChainOp
deriving DecidableEq

/-- The ES6 destructuring swap `[l[i], l[j]] = [l[j], l[i]]` (identity when
either index is out of range, which never happens at the call sites). -/
def listSwap (l : List Block) (i j : Nat) : List Block :=
  match l.get? i, l.get? j with
  | some a, some b => (l.set i b).set j a
  | _, _ => l

/-- First loop of `Chain.prototype.order`: scan every index `i` and swap
the block whose `previous` is the genesis sentinel to index `0`.  The
`fuel` argument is the number of loop iterations still to run; at the
call site it is the array length, so the recursion stops exactly when `i`
falls off the end (swaps preserve the length). -/
def orderPhase1Go (l : List Block) (i : Nat) : Nat → List Block
  | 0 => l
  | fuel + 1 =>
    match l.get? i with
    | some bi =>
      orderPhase1Go (if bi.previous == GENESIS_HASH then listSwap l 0 i else l) (i + 1) fuel
    | none => l

/-- Body of the second loop of `order` at index `i`: `a` is the block at
position `i+1`, `t` the blocks at positions `i+2 …`.  If `a.previous`
already matches `prev` (`blocks[i].hash`) nothing happens, otherwise the
first block of `t` whose `previous` matches `prev` is swapped with `a`;
when none exists the position is left unresolved. -/
def fixHeadPair (prev : String) (a : Block) (t : List Block) : Block × List Block :=
  if a.previous == prev then (a, t)
  else
    match t.findIdx? (fun b => b.previous == prev) with
    | some k =>
      match t.get? k with
      | some e => (e, t.set k a)
      | none => (a, t)
    | none => (a, t)

/-- Second loop of `order`, expressed over the suffix of the block array
that starts at position `i+1` (the imperative loop never revisits
positions `≤ i`, so the array state is captured by the suffix).  `fuel`
is the suffix length at the call site; `fixHeadPair` preserves the tail
length, so fuel and suffix run out together. -/
def orderPhase2Go : Nat → String → List Block → List Block
  | _, _, [] => []
  | 0, _, l => l
  | fuel + 1, prev, a :: t =>
    let p := fixHeadPair prev a t
    p.1 :: orderPhase2Go fuel p.1.hash p.2

/-- Both loops of `order` applied to the block array. -/
def orderBlocks (l : List Block) : List Block :=
  match orderPhase1Go l 0 l.length with
  | [] => []
  | b :: t => b :: orderPhase2Go t.length b.hash t

/-- `Chain.prototype.order` of the ordered variant: a no-op on a chain
already marked ordered; otherwise runs the two loops when there is more
than one block, and in every case resolves with `_isOrdered = true`.
(The `_isOrdering`/`_orderOperation` single-flight machinery is a
concurrency concern with no effect in this single-threaded model.) -/
def chainOrder (c : Chain) : Chain :=
  if c.isOrdered then c
  else if 1 < c.blocks.length then { c with blocks := orderBlocks c.blocks, isOrdered := true }
  else { c with isOrdered := true }

/-- `Chain.prototype.add` of the ordered variant: order, take the current
head hash (the genesis sentinel on an empty chain), and append plus record
an ADD operation exactly when `b.previous` matches it. -/
def chainAdd (c : Chain) (b : Block) : Except String Chain :=
  let co := chainOrder c
  let current := match co.blocks.getLast? with
    | some hb => hb.hash
    | none => GENESIS_HASH
  if b.previous == current then
    Except.ok { co with
                blocks := co.blocks ++ [b]
                lastOperations := co.lastOperations ++ [⟨ChainOpType.ADD, [b]⟩] }
  else Except.error "Block previous hash is not valid, therefore the block cannot be added!"

/-- State of the walk-based chain variant (the first class in
src/lib/base/Chain.js): just its `_blocks`. -/
structure ChainV1 where
  blocks : List Block
deriving DecidableEq

/-- `Chain.prototype._getByPrevious` of the walk-based variant: the first
block whose `previous` field equals the argument, if any. -/
def getByPrevious (c : ChainV1) (previous : String) : Option Block :=
  c.blocks.find? (fun block => block.previous == previous)

/-- `Chain.prototype.add` of the walk-based variant: on a non-empty chain
it requires `_getByPrevious(b.previous)` to succeed — that is, it looks
for an existing block whose `previous` field equals the new block's
`previous` — and then pushes the block; an empty chain accepts anything. -/
def chainAddV1 (c : ChainV1) (b : Block) : Except String ChainV1 :=
  if 0 < c.blocks.length then
    match getByPrevious c b.previous with
    | some _ => Except.ok ⟨c.blocks ++ [b]⟩
    | none => Except.error "Invalid block previous!"
  else Except.ok ⟨c.blocks ++ [b]⟩

/-- JavaScript truthiness of an optional number (`undefined` and `0` are
falsy). -/
def truthyNat : Option Nat → Bool
  | none => false
  | some n => n != 0

/-- JavaScript truthiness of an optional string (`undefined` and `""` are
falsy). -/
def truthyStr : Option String → Bool
  | none => false
  | some s => s != ""

/-- `Array.prototype.indexOf` over the hash strings: `-1` when the needle
is `undefined` or absent. -/
def jsIndexOf (l : List String) (x : Option String) : Int :=
  match x with
  | none => -1
  | some s =>
    match l.findIdx? (fun y => y == s) with
    | some k => Int.ofNat k
    | none => -1

/-- `Array.prototype.splice(start, deleteCount)` called with exactly two
arguments: a negative `start` counts from the end, and an `undefined`
`deleteCount` converts to `0` (so nothing is removed).  Returns the
remaining array and the removed run. -/
def jsSplice (l : List Block) (start : Int) (deleteCount : Option Int) :
    List Block × List Block :=
  let len : Int := l.length
  let actualStart : Nat := (if start < 0 then max (len + start) 0 else min start len).toNat
  let dc : Nat :=
    match deleteCount with
    | none => 0
    | some d => (min (max d 0) (len - actualStart)).toNat
  (l.take actualStart ++ l.drop (actualStart + dc), (l.drop actualStart).take dc)

/-- The `{hash, index, length}` options of `Chain.prototype.delete`. -/
structure DelOpts where
  hash : Option String := none
  index : Option Nat := none
  length : Option Nat := none

/-- `Chain.prototype.delete`: resolve the splice start from the given
index, or else from `indexOf` of the given hash over the pre-order block
hashes (`-1` when absent); resolve the splice length only when the given
length is truthy (otherwise `splice` receives `undefined` and removes
nothing); order; then splice and record a DELETE operation when the start
is truthy, failing otherwise. -/
def chainDelete (c : Chain) (opts : Option DelOpts) : Except String (Chain × List Block) :=
  let toFind : Option String :=
    match opts with
    | some o => if truthyStr o.hash then o.hash else none
    | none => none
  let spliceIndex : Option Int :=
    match opts with
    | some o =>
      if truthyNat o.index then o.index.map Int.ofNat
      else some (jsIndexOf (c.blocks.map Block.hash) toFind)
    | none => none
  let spliceLength : Option Nat :=
    match opts with
    | some o => if truthyNat o.length then o.length else none
    | none => none
  let co := chainOrder c
  match spliceIndex with
  | some si =>
    if si != 0 then
      let res := jsSplice co.blocks si (spliceLength.map Int.ofNat)
      Except.ok ({ co with
                   blocks := res.1
                   lastOperations := co.lastOperations ++ [⟨ChainOpType.DELETE, res.2⟩] },
        res.2)
    else Except.error "Given block not found in chain for deletion."
  | none => Except.error "Given block not found in chain for deletion."

/-- Length of the lock-step matching run of `Chain.prototype.diff`: how
many leading positions of the two arrays carry equal hashes. -/
def matchLen : List Block → List Block → Nat
  | a :: as_, b :: bs => if a.hash == b.hash then matchLen as_ bs + 1 else 0
  | _, _ => 0

/-- `Chain.prototype.diff` of the ordered variant: order both chains;
return the other (resp. this) chain's blocks verbatim when exactly one is
empty; otherwise let `larger`/`smaller` be the longer/shorter block array
(ties make `other` the larger), skip the `larger` prefix that precedes the
first hash match with `smaller[0]`, emit a `null` per lock-step hash
match, and append the rest of `larger` verbatim.  (With both chains empty
the JavaScript dereferences `smaller[0].hash` of `undefined` and throws a
`TypeError`.) -/
def chainDiff (c other : Chain) : Except String (List (Option Block)) :=
  let co := chainOrder c
  let oo := chainOrder other
  if !co.isOrdered || !oo.isOrdered then
    Except.error "Awaited ordering operation but chains are not ordered!"
  else if co.blocks.length == 0 && oo.blocks.length != 0 then
    Except.ok (oo.blocks.map some)
  else if co.blocks.length != 0 && oo.blocks.length == 0 then
    Except.ok (co.blocks.map some)
  else
    let larger := if oo.blocks.length < co.blocks.length then co.blocks else oo.blocks
    let smaller := if oo.blocks.length < co.blocks.length then oo.blocks else co.blocks
    match smaller with
    | [] => Except.error "TypeError: cannot read properties of undefined"
    | s0 :: _ =>
      let i0 := larger.findIdx (fun b => b.hash == s0.hash)
      let m := matchLen (larger.drop i0) smaller
      Except.ok ((larger.take i0).map some ++ List.replicate m none ++
        (larger.drop (i0 + m)).map some)

/-- Loop of `Chain.prototype.verify` over positions `1 …`: each block must
pass its own `verify(quick)` and its `previous` must equal the stored hash
of the block before it. -/
def verifyGo (H : HashFn) (quick : Bool) (prev : Block) : List Block → Bool
  | [] => true
  | b :: rest =>
    if !(blockVerify H quick b) then false
    else if prev.hash != b.previous then false
    else verifyGo H quick b rest

/-- `Chain.prototype.verify` of the ordered variant: order, then check
block 0 and run the loop; an empty chain verifies. -/
def chainVerify (H : HashFn) (c : Chain) (quick : Bool) : Except String Bool :=
  let co := chainOrder c
  if !co.isOrdered then
    Except.error "Awaited ordering operation but chain is not ordered!"
  else
    Except.ok
      (match co.blocks with
       | [] => true
       | b0 :: rest => if !(blockVerify H quick b0) then false else verifyGo H quick b0 rest)

/-- Loop of `Chain.prototype.rollback` over positions `1 …`: with no
target hash an invalid block, or in any mode a broken link to the
predecessor, triggers deletion from the current position to the end; a
block whose stored hash equals the target triggers deletion of everything
strictly after it; falling off the end raises the rollback error. -/
def rollbackGo (H : HashFn) (hash : Option String) (c : Chain) (i : Nat) :
    Nat → Except String (Chain × Bool)
  | 0 =>
    Except.error
      "Could not perform rollback: Either the chain is valid and no hash was given, or the given hash was not found!"
  | fuel + 1 =>
    match c.blocks.get? i with
    | some bi =>
      let bp := c.blocks.getD (i - 1) bi
      if (hash.isNone && !(blockVerify H false bi)) || (bp.hash != bi.previous) then
        (chainDelete c (some { index := some i, length := some (c.blocks.length - i) })).map
          (fun r => (r.1, true))
      else if (match hash with | some hh => bi.hash == hh | none => false) then
        (chainDelete c
          (some { index := some (i + 1), length := some (c.blocks.length - (i + 1)) })).map
          (fun r => (r.1, true))
      else rollbackGo H hash c (i + 1) fuel
    | none =>
      Except.error
        "Could not perform rollback: Either the chain is valid and no hash was given, or the given hash was not found!"

/-- `Chain.prototype.rollback`: order; an empty chain succeeds trivially;
with no target hash an invalid genesis block deletes the whole chain (via
`delete({index: 0, …})`, whose `indexOf` fallback makes the splice start
`-1`); a genesis block carrying the target hash deletes everything after
position 0; otherwise the loop from position 1 decides. -/
def chainRollback (H : HashFn) (c : Chain) (hash : Option String) :
    Except String (Chain × Bool) :=
  let co := chainOrder c
  if !co.isOrdered then
    Except.error "Awaited ordering operation but chain is not ordered!"
  else
    match co.blocks.get? 0 with
    | some b0 =>
      if hash.isNone && !(blockVerify H false b0) then
        (chainDelete co (some { index := some 0, length := some co.blocks.length })).map
          (fun r => (r.1, true))
      else if (match hash with | some hh => b0.hash == hh | none => false) then
        (chainDelete co (some { index := some 1, length := some (co.blocks.length - 1) })).map
          (fun r => (r.1, true))
      else rollbackGo H hash co 1 co.blocks.length
    | none => Except.ok (co, true)

/-! ### Serialization (src/lib/base/Block.js) -/

/-- The canonical serialized form of a block: the five-field object
`{data, hash, nonce, previous, salt}` passed to `JSON.stringify` by
`Block.prototype.stringify`.  `JSON.stringify` renders equal five-field
records to identical strings and `JSON.parse` recovers the record, so
string equality of serialized blocks is equality of these records. -/
structure BlockJson where
  data : String
  hash : String
  nonce : Nat
  previous : String
  salt : String
deriving DecidableEq

/-- `Block.prototype.stringify`. -/
def blockStringify (b : Block) : BlockJson :=
  { data := b.data, hash := b.hash, nonce := b.nonce, previous := b.previous, salt := b.salt }

/-- A parsed JSON object as consumed by `Block.prototype.parse`: any of
the five fields may be absent. -/
structure ParsedJson where
  data : Option String := none
  hash : Option String := none
  nonce : Option Nat := none
  previous : Option String := none
  salt : Option String := none

/-- `JSON.parse` of a `stringify` output: every field present. -/
def toParsed (j : BlockJson) : ParsedJson :=
  { data := some j.data, hash := some j.hash, nonce := some j.nonce,
    previous := some j.previous, salt := some j.salt }

/-- `Block.prototype.parse`: each stored field is replaced by the parsed
field when present and kept otherwise. -/
def blockParse (b : Block) (j : ParsedJson) : Block :=
  { salt := j.salt.getD b.salt, previous := j.previous.getD b.previous,
    nonce := j.nonce.getD b.nonce, hash := j.hash.getD b.hash, data := j.data.getD b.data }

/-- `Block.prototype.equals` with `quick = false` and the default
comparator: string equality of the two `stringify` outputs. -/
def blockEqualsFull (a b : Block) : Bool :=
  blockStringify a == blockStringify b

/-- Adjacency of a block sequence starting from a given `previous` value:
the first block's `previous` is `p` and every later block's `previous` is
the stored hash of the block before it.  (`Bool`-valued so concrete
instances evaluate.) -/
def linkedFrom (p : String) : List Block → Bool
  | [] => true
  | b :: t => b.previous == p && linkedFrom b.hash t

/-! ### Concrete instances used by witnesses and counterexamples

The digest is pluggable (`hashingAlgorithm` is a constructor argument),
so concrete instances may configure small total digests. -/

/-- A toy digest succeeding exactly at nonces `≡ 2 (mod 3)`. -/
def HtoyMod3 : HashFn := fun _ n _ _ => if n % 3 == 2 then "0000" else "ff"

/-- A toy digest whose output depends on the nonce and always carries the
required suffix. -/
def HtoyC1 : HashFn := fun _ n _ _ => if n == 0 then "a0000" else "b0000"

/-- A toy digest returning the data followed by the required suffix. -/
def HtoyData : HashFn := fun d _ _ _ => d ++ "0000"

/-- A digest never consulted by the instance using it. -/
def HtoyNever : HashFn := fun _ _ _ _ => ""

/-- A five-block, correctly linked chain `blkG, blkA, blkB, blkC, blkD`
(stored hashes `aa … ee`; chain-level claims only read the link fields). -/
def blkG : Block := ⟨"g", 0, GENESIS_HASH, "s", "aa"⟩

def blkA : Block := ⟨"a", 0, "aa", "s", "bb"⟩

def blkB : Block := ⟨"b", 0, "bb", "s", "cc"⟩

def blkC : Block := ⟨"c", 0, "cc", "s", "dd"⟩

def blkD : Block := ⟨"d", 0, "dd", "s", "ee"⟩

/-- A block whose `previous` duplicates `blkG`'s `previous` (the genesis
sentinel) rather than pointing at `blkG`'s hash. -/
def blkX : Block := ⟨"x", 0, GENESIS_HASH, "s", "zz"⟩

/-- A part_003-style block holding nonce `0`, as left by that variant's
constructor defaults. -/
def blkP3 : Block := ⟨"old", 0, "p", "s", "h"⟩

/-- The block mined by the base constructor under `HtoyMod3`. -/
def blkC9 : Block := ⟨"d", 2, "p", "s", "0000"⟩

/-- Input, first mining result and re-mining result for the amended C1
instance. -/
def blkC1a : Block := ⟨"a", 0, "p", "s", "x"⟩

def blkC1b : Block := ⟨"a", 2, "p", "s", "0000"⟩

def blkC1c : Block := ⟨"b", 5, "p", "s", "0000"⟩

/-- A genesis block valid under `HtoyData` (its stored hash is the
recomputed digest `"g0000"`). -/
def gC3 : Block := ⟨"g", 0, GENESIS_HASH, "s", "g0000"⟩

/-- A successor of `gC3` whose stored hash field has been corrupted: the
recomputed digest is `"b0000"` but the stored value is `"X0000"` (which
still ends in `"0000"`, so the quick check cannot see the corruption). -/
def b1C3 : Block := ⟨"b", 0, "g0000", "s", "X0000"⟩

/-- A single block not linking to the genesis sentinel. -/
def bC7 : Block := ⟨"q", 0, "ff", "s", "qq"⟩

/-- A two-block set with no genesis block and no internal link. -/
def chW7 : Chain := ⟨[⟨"x", 0, "a1", "s", "x1"⟩, ⟨"y", 0, "b1", "s", "y1"⟩], false, []⟩

/-- The five-block linked chain used by the rollback witness. -/
def chW5 : Chain := ⟨[blkG, blkA, blkB, blkC, blkD], true, []⟩

/-! ### Theorems -/

theorem mineFrom_sound (H : HashFn) (d p s : String) :
    ∀ fuel start n, mineFrom H d p s start fuel = some n →
      start ≤ n ∧ suffixOk (H d n p s) = true ∧
        ∀ m, start ≤ m → m < n → suffixOk (H d m p s) = false := by
  intro fuel
  induction fuel with
  | zero => intro start n h; simp [mineFrom] at h
  | succ k ih =>
    intro start n h
    simp only [mineFrom] at h
    by_cases hs : suffixOk (H d start p s) = true
    · simp [hs] at h
      subst h
      exact ⟨Nat.le_refl _, hs, fun m hm1 hm2 => absurd (Nat.lt_of_lt_of_le hm2 hm1)
        (Nat.lt_irrefl m)⟩
    · simp [hs] at h
      obtain ⟨h1, h2, h3⟩ := ih (start + 1) n h
      refine ⟨Nat.le_trans (Nat.le_succ start) h1, h2, fun m hm1 hm2 => ?_⟩
      rcases Nat.eq_or_lt_of_le hm1 with heq | hlt
      · subst heq; simpa using hs
      · exact h3 m hlt hm2

theorem chainOrder_of_isOrdered (c : Chain) (h : c.isOrdered = true) : chainOrder c = c := by
  simp [chainOrder, h]

theorem chainOrder_isOrdered (c : Chain) : (chainOrder c).isOrdered = true := by
  unfold chainOrder
  split
  · assumption
  · split <;> rfl

theorem chainOrder_lastOperations (c : Chain) :
    (chainOrder c).lastOperations = c.lastOperations := by
  unfold chainOrder
  split
  · rfl
  · split <;> rfl

theorem cons_set_perm (t : List Block) (k : Nat) (a b : Block)
    (h : t.get? k = some b) : (b :: t.set k a).Perm (a :: t) := by
  have hk : k < t.length := by
    by_contra hk
    rw [List.get?_eq_none.mpr (Nat.le_of_not_lt hk)] at h
    exact Option.noConfusion h
  have hdrop : t.drop k = b :: t.drop (k + 1) := by
    rw [← List.getElem_cons_drop t k hk]
    have : t[k] = b := by
      have hg := List.get?_eq_get hk
      rw [hg] at h
      exact Option.some.inj h
    rw [this]
  have ht : t = t.take k ++ b :: t.drop (k + 1) := by
    conv_lhs => rw [← List.take_append_drop k t, hdrop]
  have hset : t.set k a = t.take k ++ a :: t.drop (k + 1) :=
    List.set_eq_take_cons_drop a hk
  rw [hset]
  conv_rhs => rw [ht]
  exact (List.perm_middle.cons b).trans
    ((List.Perm.swap a b _).trans ((List.perm_middle.symm).cons a))

theorem listSwap_zero_perm (l : List Block) (j : Nat) : (listSwap l 0 j).Perm l := by
  unfold listSwap
  cases l with
  | nil => exact List.Perm.refl _
  | cons a t =>
    cases j with
    | zero => exact List.Perm.refl _
    | succ k =>
      cases hj : (a :: t).get? (k + 1) with
      | none => exact List.Perm.refl _
      | some b =>
        have hj' : t.get? k = some b := hj
        exact cons_set_perm t k a b hj'

theorem orderPhase1Go_perm : ∀ (fuel : Nat) (l : List Block) (i : Nat),
    (orderPhase1Go l i fuel).Perm l := by
  intro fuel
  induction fuel with
  | zero => intro l i; exact List.Perm.refl l
  | succ f ih =>
    intro l i
    unfold orderPhase1Go
    cases hg : l.get? i with
    | none => exact List.Perm.refl l
    | some bi =>
      show (orderPhase1Go
        (if (bi.previous == GENESIS_HASH) = true then listSwap l 0 i else l) (i + 1) f).Perm l
      by_cases hb : (bi.previous == GENESIS_HASH) = true
      · rw [if_pos hb]
        exact (ih _ _).trans (listSwap_zero_perm l i)
      · rw [if_neg hb]
        exact ih l (i + 1)

theorem fixHeadPair_head_match (prev : String) (a : Block) (t : List Block)
    (ha : (a.previous == prev) = true) : fixHeadPair prev a t = (a, t) := by
  unfold fixHeadPair
  rw [if_pos ha]

theorem fixHeadPair_found (prev : String) (a : Block) (t : List Block) (k : Nat) (e : Block)
    (ha : (a.previous == prev) = false)
    (hf : t.findIdx? (fun b => b.previous == prev) = some k)
    (hg : t.get? k = some e) : fixHeadPair prev a t = (e, t.set k a) := by
  unfold fixHeadPair
  rw [if_neg (by simp [ha]), hf]
  show (match t.get? k with
        | some e0 => (e0, t.set k a)
        | none => (a, t)) = (e, t.set k a)
  rw [hg]

theorem fixHeadPair_notFound (prev : String) (a : Block) (t : List Block)
    (ha : (a.previous == prev) = false)
    (hf : t.findIdx? (fun b => b.previous == prev) = none) :
    fixHeadPair prev a t = (a, t) := by
  unfold fixHeadPair
  rw [if_neg (by simp [ha]), hf]

theorem findIdx?_get (p : Block → Bool) (t : List Block) (k : Nat)
    (hf : t.findIdx? p = some k) :
    ∃ e, t.get? k = some e ∧ p e = true := by
  obtain ⟨hk, hp, -⟩ := List.findIdx?_eq_some_iff_getElem.mp hf
  exact ⟨t[k], by rw [List.get?_eq_getElem?, List.getElem?_eq_getElem hk], hp⟩

theorem fixHeadPair_cons_perm (prev : String) (a : Block) (t : List Block) :
    ((fixHeadPair prev a t).1 :: (fixHeadPair prev a t).2).Perm (a :: t) := by
  by_cases ha : (a.previous == prev) = true
  · rw [fixHeadPair_head_match prev a t ha]
  · have ha' : (a.previous == prev) = false := by
      cases h : (a.previous == prev)
      · rfl
      · exact absurd h ha
    cases hf : t.findIdx? (fun b => b.previous == prev) with
    | none => rw [fixHeadPair_notFound prev a t ha' hf]
    | some k =>
      obtain ⟨e, hg, -⟩ := findIdx?_get _ t k hf
      rw [fixHeadPair_found prev a t k e ha' hf hg]
      exact cons_set_perm t k a e hg

theorem orderPhase2Go_perm : ∀ (fuel : Nat) (prev : String) (l : List Block),
    (orderPhase2Go fuel prev l).Perm l := by
  intro fuel
  induction fuel with
  | zero =>
    intro prev l
    cases l <;> exact List.Perm.refl _
  | succ f ih =>
    intro prev l
    cases l with
    | nil => exact List.Perm.refl _
    | cons a t =>
      show ((fixHeadPair prev a t).1 :: orderPhase2Go f (fixHeadPair prev a t).1.hash
        (fixHeadPair prev a t).2).Perm (a :: t)
      exact ((ih _ _).cons _).trans (fixHeadPair_cons_perm prev a t)

theorem orderBlocks_perm (l : List Block) : (orderBlocks l).Perm l := by
  unfold orderBlocks
  split
  · rename_i heq
    have := orderPhase1Go_perm l.length l 0
    rw [heq] at this
    exact this
  · rename_i b t heq
    have h1 := orderPhase1Go_perm l.length l 0
    rw [heq] at h1
    exact ((orderPhase2Go_perm t.length b.hash t).cons b).trans h1

theorem chainOrder_blocks_perm (c : Chain) : (chainOrder c).blocks.Perm c.blocks := by
  unfold chainOrder
  split
  · exact List.Perm.refl _
  · split
    · exact orderBlocks_perm c.blocks
    · exact List.Perm.refl _

/-- C8: deserializing the serialization of any block — `parse` applied to
the output of `stringify`, starting from any block state — restores every
field, so the result equals the original under the full `quick = false`
comparison, i.e. both blocks serialize identically. -/
theorem C8_roundtrip (b0 B : Block) :
    blockParse b0 (toParsed (blockStringify B)) = B ∧
    blockEqualsFull (blockParse b0 (toParsed (blockStringify B))) B = true ∧
    blockStringify (blockParse b0 (toParsed (blockStringify B))) = blockStringify B := by
  have h : blockParse b0 (toParsed (blockStringify B)) = B := rfl
  refine ⟨h, ?_, by rw [h]⟩
  rw [blockEqualsFull, h]
  simp

/-- C9: the base `Block` constructor ignores a caller-supplied `hash` and
overwrites the supplied `nonce` by mining from `0`: whenever construction
(mining) terminates, the resulting block's hash is the digest of its
`(data, nonce, previous, salt)`, ends in `"0000"`, its nonce is the least
satisfying one, and the result is independent of the supplied hash and
nonce. -/
theorem C9_constructor_mines (H : HashFn) (fuel : Nat) (d : String)
    (hashArg hashArg' : Option String) (n n' : Nat) (p s : String) (b : Block)
    (hmk : mkBlock H fuel d hashArg n p s = some b) :
    b.hash = H d b.nonce p s ∧ suffixOk b.hash = true ∧
      (∀ m, m < b.nonce → suffixOk (H d m p s) = false) ∧
      b.data = d ∧ b.previous = p ∧ b.salt = s ∧
      mkBlock H fuel d hashArg' n' p s = some b := by
  unfold mkBlock recomputeHash at hmk ⊢
  cases hmine : mineFrom H d p s 0 fuel with
  | none =>
    rw [hmine] at hmk
    exact Option.noConfusion hmk
  | some n0 =>
    rw [hmine] at hmk
    obtain ⟨-, hsuf, hmin⟩ := mineFrom_sound H d p s fuel 0 n0 hmine
    obtain rfl := Option.some.inj hmk
    exact ⟨rfl, hsuf, fun m hm => hmin m (Nat.zero_le m) hm, rfl, rfl, rfl, rfl⟩

/-- C9 witness: under the toy digest `HtoyMod3` the constructor discards
the supplied hash `"cafe"` and nonce `7` and mines nonce `2`. -/
theorem C9_constructor_mines_witness :
    mkBlock HtoyMod3 9 "d" (some "cafe") 7 "p" "s" = some blkC9 ∧
    (blkC9.hash = HtoyMod3 "d" blkC9.nonce "p" "s" ∧ suffixOk blkC9.hash = true ∧
      (∀ m, m < blkC9.nonce → suffixOk (HtoyMod3 "d" m "p" "s") = false) ∧
      blkC9.data = "d" ∧ blkC9.previous = "p" ∧ blkC9.salt = "s" ∧
      mkBlock HtoyMod3 9 "d" none 0 "p" "s" = some blkC9) :=
  ⟨by decide,
   C9_constructor_mines HtoyMod3 9 "d" (some "cafe") none 7 0 "p" "s" blkC9 (by decide)⟩

/-- C1 counterexample: the claim's "smallest non-negative integer" and
"re-mining identical `(data, previous, salt)` inputs always yields the
same `(nonce, hash)` pair" fail for the part_003 `set data` mutation path,
which the claim covers: under the configured digest `HtoyC1` (satisfying
at every nonce) a part_003 block holding nonce `0` that mutates its data
records nonce `1` and hash `"b0000"`, although nonce `0` already satisfies
the suffix, and re-mining the same inputs from a fresh base constructor
state yields the different pair `(0, "a0000")`. -/
theorem C1_counterexample :
    setDataP3 HtoyC1 5 blkP3 "new" = some ⟨"new", 1, "p", "s", "b0000"⟩ ∧
    suffixOk (HtoyC1 "new" 0 "p" "s") = true ∧
    recomputeHash HtoyC1 5 ⟨"new", 0, "p", "s", ""⟩ =
      some ⟨"new", 0, "p", "s", "a0000"⟩ := by decide

/-- C1 (amended): whenever mining terminates, the produced hash is the
configured digest of `(data, nonce, previous, salt)` and ends in `"0000"`;
for the base `_recomputeHash` (construction and base-variant data/previous
mutations) the nonce is the smallest non-negative satisfying one, while
for the part_003 `set data` path the nonce is the smallest satisfying one
strictly greater than the block's previous nonce. -/
theorem C1_mining_amended (H : HashFn) (fuel : Nat) (b b' : Block) (d : String) :
    (recomputeHash H fuel b = some b' →
        b'.hash = H b.data b'.nonce b.previous b.salt ∧ suffixOk b'.hash = true ∧
          ∀ m, m < b'.nonce → suffixOk (H b.data m b.previous b.salt) = false) ∧
    (setDataP3 H fuel b d = some b' →
        b'.hash = H d b'.nonce b.previous b.salt ∧ suffixOk b'.hash = true ∧
          b.nonce < b'.nonce ∧
          ∀ m, b.nonce < m → m < b'.nonce → suffixOk (H d m b.previous b.salt) = false) := by
  constructor
  · intro hre
    unfold recomputeHash at hre
    cases hmine : mineFrom H b.data b.previous b.salt 0 fuel with
    | none => rw [hmine] at hre; exact Option.noConfusion hre
    | some n0 =>
      rw [hmine] at hre
      obtain ⟨-, hsuf, hmin⟩ := mineFrom_sound H b.data b.previous b.salt fuel 0 n0 hmine
      obtain rfl := Option.some.inj hre
      exact ⟨rfl, hsuf, fun m hm => hmin m (Nat.zero_le m) hm⟩
  · intro hsd
    unfold setDataP3 at hsd
    cases hmine : mineFrom H d b.previous b.salt (b.nonce + 1) fuel with
    | none => rw [hmine] at hsd; exact Option.noConfusion hsd
    | some n0 =>
      rw [hmine] at hsd
      obtain ⟨hge, hsuf, hmin⟩ :=
        mineFrom_sound H d b.previous b.salt fuel (b.nonce + 1) n0 hmine
      obtain rfl := Option.some.inj hsd
      exact ⟨rfl, hsuf, Nat.lt_of_succ_le hge,
        fun m hm1 hm2 => hmin m (Nat.succ_le_of_lt hm1) hm2⟩

/-- C1 witness: under `HtoyMod3`, `_recomputeHash` mines nonce `2` from
`0`, and the part_003 `set data` on a block holding nonce `2` mines nonce
`5` (the least satisfying nonce above `2`). -/
theorem C1_mining_amended_witness :
    recomputeHash HtoyMod3 9 blkC1a = some blkC1b ∧
    (blkC1b.hash = HtoyMod3 blkC1a.data blkC1b.nonce blkC1a.previous blkC1a.salt ∧
      suffixOk blkC1b.hash = true ∧
      ∀ m, m < blkC1b.nonce → suffixOk (HtoyMod3 blkC1a.data m blkC1a.previous blkC1a.salt) = false) ∧
    setDataP3 HtoyMod3 9 blkC1b "b" = some blkC1c ∧
    (blkC1c.hash = HtoyMod3 "b" blkC1c.nonce blkC1b.previous blkC1b.salt ∧
      suffixOk blkC1c.hash = true ∧
      blkC1b.nonce < blkC1c.nonce ∧
      ∀ m, blkC1b.nonce < m → m < blkC1c.nonce →
        suffixOk (HtoyMod3 "b" m blkC1b.previous blkC1b.salt) = false) :=
  ⟨by decide,
   (C1_mining_amended HtoyMod3 9 blkC1a blkC1b "b").1 (by decide),
   by decide,
   (C1_mining_amended HtoyMod3 9 blkC1b blkC1c "b").2 (by decide)⟩

/-- C2: the walk-based variant's `add` diverges from the claim at a
concrete input.  On the one-block chain `[blkG]`, the correctly linked
block `blkA` (`blkA.previous = blkG.hash`) is rejected with
`"Invalid block previous!"` — because `_getByPrevious(b.previous)` looks
for a block whose `previous` *field* equals the new block's `previous`
instead of a block whose *hash* does — while the mislinked block `blkX`
(whose `previous` merely duplicates `blkG.previous`) is accepted.  The
ordered variant's `add` behaves as the claim states on the same inputs. -/
theorem C2_add_divergence :
    blkA.previous = blkG.hash ∧
    chainAddV1 ⟨[blkG]⟩ blkA = Except.error "Invalid block previous!" ∧
    chainAdd ⟨[blkG], true, []⟩ blkA =
      Except.ok ⟨[blkG, blkA], true, [⟨ChainOpType.ADD, [blkA]⟩]⟩ ∧
    blkX.previous ≠ blkG.hash ∧
    chainAddV1 ⟨[blkG]⟩ blkX = Except.ok ⟨[blkG, blkX]⟩ ∧
    chainAdd ⟨[blkG], true, []⟩ blkX =
      Except.error "Block previous hash is not valid, therefore the block cannot be added!" := by
  decide

/-- C7 counterexample: ordering a non-empty block set with no genesis
block does not fail — `order` on the single mislinked block `bC7`
completes normally, marking the chain ordered and leaving the block in
place; no `NoGenesisBlock` error exists in the code. -/
theorem C7_counterexample :
    bC7.previous ≠ GENESIS_HASH ∧
    chainOrder ⟨[bC7], false, []⟩ = ⟨[bC7], true, []⟩ := by decide

/-- C7 (amended): `order` never fails; on any chain — in particular any
non-empty block set in which no block links to the genesis sentinel — it
completes, marks the chain ordered, and leaves a permutation of the same
blocks (a missing genesis is surfaced later by `verify`, not by
ordering). -/
theorem C7_order_never_fails (c : Chain) (_hne : c.blocks ≠ [])
    (_hng : ∀ b ∈ c.blocks, b.previous ≠ GENESIS_HASH) :
    (chainOrder c).isOrdered = true ∧ (chainOrder c).blocks.Perm c.blocks :=
  ⟨chainOrder_isOrdered c, chainOrder_blocks_perm c⟩

/-- C7 witness: a two-block genesis-less set is ordered without error. -/
theorem C7_order_never_fails_witness :
    chW7.blocks ≠ [] ∧ (∀ b ∈ chW7.blocks, b.previous ≠ GENESIS_HASH) ∧
    ((chainOrder chW7).isOrdered = true ∧ (chainOrder chW7).blocks.Perm chW7.blocks) :=
  ⟨by decide, by decide, C7_order_never_fails chW7 (by decide) (by decide)⟩

theorem verifyGo_iff (H : HashFn) (quick : Bool) :
    ∀ (l : List Block) (p : Block),
      verifyGo H quick p l = true ↔
        ((∀ b ∈ l, blockVerify H quick b = true) ∧
          List.Chain' (fun a b => a.hash = b.previous) (p :: l)) := by
  intro l
  induction l with
  | nil =>
    intro p
    simp [verifyGo]
  | cons b rest ih =>
    intro p
    cases hvb : blockVerify H quick b with
    | false =>
      simp only [verifyGo, hvb, Bool.not_false, if_true]
      simp [hvb]
    | true =>
      cases hpb : p.hash == b.previous with
      | false =>
        simp only [verifyGo, hvb, Bool.not_true, if_false, bne, Bool.not_false, if_true]
        have : p.hash ≠ b.previous := by
          intro he
          rw [he] at hpb
          simp at hpb
        simp [hpb, List.chain'_cons, this]
      | true =>
        simp only [verifyGo, hvb, Bool.not_true, if_false, bne, Bool.not_true]
        have hpe : p.hash = b.previous := by
          have := hpb
          rwa [beq_iff_eq] at this
        simp [ih b, List.chain'_cons, hpe, hvb, List.forall_mem_cons]

/-- C3: `verify(quick)` forces ordering and returns true exactly when
every block of the ordered sequence passes its own `verify(quick)` and
every adjacent pair satisfies `blocks[i].hash == blocks[i+1].previous`;
and on the concrete two-block chain whose second block's stored hash
field is corrupted (`b1C3`), `verify(false)` returns false. -/
theorem C3_verify_iff :
    (∀ (H : HashFn) (c : Chain) (quick : Bool),
        chainVerify H c quick = Except.ok true ↔
          ((∀ b ∈ (chainOrder c).blocks, blockVerify H quick b = true) ∧
            List.Chain' (fun a b => a.hash = b.previous) (chainOrder c).blocks)) ∧
    chainVerify HtoyData ⟨[gC3, b1C3], true, []⟩ false = Except.ok false := by
  constructor
  · intro H c quick
    unfold chainVerify
    simp only [chainOrder_isOrdered c, Bool.not_true, Bool.false_eq_true, if_false]
    cases hb : (chainOrder c).blocks with
    | nil => simp
    | cons b0 rest =>
      cases hvb : blockVerify H quick b0 with
      | false =>
        simp [hvb]
      | true =>
        simp only [hvb, Bool.not_true, if_false, Except.ok.injEq, Bool.false_eq_true]
        rw [verifyGo_iff]
        simp [hvb, List.forall_mem_cons]
  · decide


theorem matchLen_append_self : ∀ (l r : List Block), matchLen (l ++ r) l = l.length := by
  intro l
  induction l with
  | nil => intro r; cases r <;> rfl
  | cons a t ih =>
    intro r
    show (if a.hash == a.hash then matchLen (t ++ r) t + 1 else 0) = t.length + 1
    rw [beq_self_eq_true, if_pos rfl, ih r]

/-- C6: diffing a chain `A` against `B = A` with exactly one extra
appended block yields `A.height` `null` placeholders followed by exactly
the appended block (the empty-`A` degenerate branch returns `B`'s single
block verbatim, which coincides with zero placeholders followed by the
block). -/
theorem C6_diff_append (A B : Chain) (x : Block)
    (hA : A.isOrdered = true) (hB : B.isOrdered = true)
    (happ : B.blocks = A.blocks ++ [x]) :
    chainDiff A B = Except.ok (List.replicate A.blocks.length none ++ [some x]) := by
  unfold chainDiff
  rw [chainOrder_of_isOrdered A hA, chainOrder_of_isOrdered B hB]
  simp only [hA, hB, Bool.not_true, Bool.or_self, Bool.false_eq_true, if_false]
  cases hAb : A.blocks with
  | nil =>
    have hBb : B.blocks = [x] := by rw [happ, hAb]; rfl
    simp [hBb]
  | cons a t =>
    have hlenB : B.blocks.length = (a :: t).length + 1 := by
      rw [happ, hAb]; simp
    rw [hAb] at happ
    simp only [hAb, hlenB, happ]
    set L := (a :: t) ++ [x] with hL
    have hlt : ¬(L.length < (a :: t).length) := by rw [hL]; simp
    rw [if_neg hlt, if_neg hlt]
    have hg1 : ((a :: t).length == 0) = false := by simp
    have hg2 : (L.length == 0) = false := by rw [hL]; simp
    rw [hg1, hg2, Bool.false_and, Bool.and_false]
    simp only [Bool.false_eq_true, if_false]
    have hfi : List.findIdx (fun b => b.hash == a.hash) L = 0 := by
      rw [hL]
      show List.findIdx (fun b => b.hash == a.hash) (a :: (t ++ [x])) = 0
      rw [List.findIdx_cons]
      simp
    show Except.ok
        (List.map some (List.take (List.findIdx (fun b => b.hash == a.hash) L) L) ++
          List.replicate (matchLen (List.drop (List.findIdx (fun b => b.hash == a.hash) L) L)
            (a :: t)) none ++
          List.map some (List.drop (List.findIdx (fun b => b.hash == a.hash) L +
            matchLen (List.drop (List.findIdx (fun b => b.hash == a.hash) L) L) (a :: t)) L)) =
      Except.ok (List.replicate (a :: t).length none ++ [some x])
    rw [hfi]
    simp only [List.drop_zero, List.take_zero, List.map_nil, List.nil_append, Nat.zero_add]
    rw [hL, matchLen_append_self (a :: t) [x], List.drop_left (a :: t) [x]]
    rfl

/-- C6 witness: on the concrete chains `[blkG]` and `[blkG, blkA]` the
diff is one placeholder followed by the appended block. -/
theorem C6_diff_append_witness :
    (⟨[blkG, blkA], true, []⟩ : Chain).blocks = (⟨[blkG], true, []⟩ : Chain).blocks ++ [blkA] ∧
    chainDiff ⟨[blkG], true, []⟩ ⟨[blkG, blkA], true, []⟩ =
      Except.ok (List.replicate (⟨[blkG], true, []⟩ : Chain).blocks.length none ++ [some blkA]) :=
  ⟨by decide,
   C6_diff_append ⟨[blkG], true, []⟩ ⟨[blkG, blkA], true, []⟩ blkA rfl rfl (by decide)⟩

theorem jsSplice_nonneg_zero (l : List Block) (i : Nat) (hi : i ≤ l.length) :
    jsSplice l (Int.ofNat i) none = (l, []) := by
  simp only [jsSplice]
  have hco : Int.ofNat i = (i : Int) := rfl
  have h1 : ¬((Int.ofNat i) < 0) := by rw [hco]; omega
  rw [if_neg h1]
  have h2 : Int.ofNat i ⊓ (l.length : Int) = Int.ofNat i := by rw [hco]; omega
  rw [h2]
  have h3 : (Int.ofNat i).toNat = i := rfl
  rw [h3]
  simp [List.take_append_drop]

/-- C10: calling `delete` with only a hash (no index, no length) for a
block located at index at least 1 removes nothing: `splice` receives an
`undefined` delete count (which converts to `0`), so the block sequence is
unchanged, the returned deleted-blocks array is empty, and a DELETE entry
holding an empty block list is still appended to the pending-operation
log. -/
theorem C10_delete_by_hash_noop (c : Chain) (h : String) (i : Nat)
    (hord : c.isOrdered = true) (hne : h ≠ "")
    (hidx : (c.blocks.map Block.hash).findIdx? (fun y => y == h) = some i)
    (hi : 1 ≤ i) :
    chainDelete c (some { hash := some h, index := none, length := none }) =
      Except.ok ({ c with lastOperations := c.lastOperations ++ [⟨ChainOpType.DELETE, []⟩] },
        []) := by
  have hilen : i < c.blocks.length := by
    have hb := (List.findIdx?_eq_some_iff_getElem.mp hidx).1
    simpa using hb
  unfold chainDelete
  have hts : (h != "") = true := by simp [hne]
  have hio : jsIndexOf (c.blocks.map Block.hash) (some h) = Int.ofNat i := by
    show (match (c.blocks.map Block.hash).findIdx? (fun y => y == h) with
          | some k => Int.ofNat k
          | none => -1) = Int.ofNat i
    rw [hidx]
  have hsi : (Int.ofNat i != 0) = true := by
    simp only [bne_iff_ne, ne_eq]
    rw [show Int.ofNat i = (i : Int) from rfl]
    omega
  have hmn : Option.map Int.ofNat (none : Option Nat) = none := rfl
  simp only [truthyNat, truthyStr, hts, if_true, Bool.false_eq_true, if_false, hio,
    chainOrder_of_isOrdered c hord, hmn, hsi,
    jsSplice_nonneg_zero c.blocks i (Nat.le_of_lt hilen)]

/-- C10 witness: deleting by `blkA`'s hash (index 1 of a two-block chain)
removes nothing and still logs an empty DELETE operation. -/
theorem C10_delete_by_hash_noop_witness :
    (((⟨[blkG, blkA], true, []⟩ : Chain).blocks.map Block.hash).findIdx?
        (fun y => y == "bb") = some 1) ∧
    chainDelete ⟨[blkG, blkA], true, []⟩
        (some { hash := some "bb", index := none, length := none }) =
      Except.ok (⟨[blkG, blkA], true, [⟨ChainOpType.DELETE, []⟩]⟩, []) :=
  ⟨by decide,
   C10_delete_by_hash_noop ⟨[blkG, blkA], true, []⟩ "bb" 1 rfl (by decide) (by decide)
     (by decide)⟩

theorem jsSplice_tail_count (l : List Block) (m : Nat) (hm : m ≤ l.length) :
    jsSplice l (Int.ofNat m) (some (Int.ofNat (l.length - m))) = (l.take m, l.drop m) := by
  simp only [jsSplice]
  have hco : Int.ofNat m = (m : Int) := rfl
  have hco2 : Int.ofNat (l.length - m) = ((l.length - m : Nat) : Int) := rfl
  have h1 : ¬((Int.ofNat m) < 0) := by rw [hco]; omega
  rw [if_neg h1]
  have h2 : Int.ofNat m ⊓ (l.length : Int) = Int.ofNat m := by rw [hco]; omega
  rw [h2]
  have h3 : (Int.ofNat m).toNat = m := rfl
  rw [h3]
  have h4 : (Int.ofNat (l.length - m) ⊔ 0) ⊓ ((l.length : Int) - (m : Nat)) =
      Int.ofNat (l.length - m) := by
    rw [hco2]
    omega
  rw [h4]
  have h5 : (Int.ofNat (l.length - m)).toNat = l.length - m := rfl
  rw [h5]
  have hA : m + (l.length - m) = l.length := by omega
  have hB : (l.drop m).length ≤ l.length - m := by simp
  rw [hA, List.drop_length, List.append_nil, List.take_of_length_le hB]

theorem chainDelete_tail (c : Chain) (hord : c.isOrdered = true) (m : Nat)
    (hm1 : 1 ≤ m) (hm2 : m ≤ c.blocks.length) :
    chainDelete c
        (some { hash := none, index := some m, length := some (c.blocks.length - m) }) =
      Except.ok ({ c with
                   blocks := c.blocks.take m
                   lastOperations :=
                     c.lastOperations ++ [⟨ChainOpType.DELETE, c.blocks.drop m⟩] },
        c.blocks.drop m) := by
  unfold chainDelete
  have hsm : ((m : Nat) != 0) = true := by
    simp only [bne_iff_ne, ne_eq]
    omega
  have hsi : (Int.ofNat m != 0) = true := by
    simp only [bne_iff_ne, ne_eq]
    rw [show Int.ofNat m = (m : Int) from rfl]
    omega
  have hmapm : ∀ (n : Nat), Option.map Int.ofNat (some n) = some (Int.ofNat n) :=
    fun _ => rfl
  by_cases hz : c.blocks.length - m = 0
  · have hml : m = c.blocks.length := by omega
    simp only [truthyNat, truthyStr, hsm, if_true, hz, bne_self_eq_false,
      Bool.false_eq_true, if_false, chainOrder_of_isOrdered c hord, hmapm,
      show Option.map Int.ofNat (none : Option Nat) = none from rfl, hsi,
      jsSplice_nonneg_zero c.blocks m hm2]
    rw [hml, List.take_length, List.drop_length]
  · have hlen1 : ((c.blocks.length - m : Nat) != 0) = true := by
      simp only [bne_iff_ne, ne_eq]
      omega
    simp only [truthyNat, truthyStr, hsm, if_true, hlen1, hmapm,
      chainOrder_of_isOrdered c hord, hsi, if_false,
      jsSplice_tail_count c.blocks m hm2]

theorem chain'_link (c : Chain)
    (hchain : List.Chain' (fun a b => b.previous = a.hash) c.blocks)
    (j : Nat) (hj1 : 1 ≤ j) (hj2 : j < c.blocks.length) :
    (c.blocks.get ⟨j - 1, by omega⟩).hash = (c.blocks.get ⟨j, hj2⟩).previous := by
  have h := List.chain'_iff_get.mp hchain (j - 1) (by omega)
  have hj : j - 1 + 1 = j := by omega
  rw [show (c.blocks.get ⟨j, hj2⟩) = c.blocks.get ⟨j - 1 + 1, by omega⟩ from by
    congr 1
    exact (Fin.mk_eq_mk).mpr (by omega)]
  exact (h).symm

theorem rollbackGo_finds (H : HashFn) (c : Chain) (hh : String) (i : Nat) (bi : Block)
    (hord : c.isOrdered = true)
    (hchain : List.Chain' (fun a b => b.previous = a.hash) c.blocks)
    (hget : c.blocks.get? i = some bi) (hbh : bi.hash = hh)
    (hfirst : ∀ j bj, j < i → c.blocks.get? j = some bj → bj.hash ≠ hh) :
    ∀ (fuel j : Nat), 1 ≤ j → j ≤ i → i - j < fuel →
      rollbackGo H (some hh) c j fuel =
        Except.ok ({ c with
                     blocks := c.blocks.take (i + 1)
                     lastOperations :=
                       c.lastOperations ++ [⟨ChainOpType.DELETE, c.blocks.drop (i + 1)⟩] },
          true) := by
  have hilen : i < c.blocks.length := by
    by_contra hcon
    rw [List.get?_eq_none.mpr (Nat.le_of_not_lt hcon)] at hget
    exact Option.noConfusion hget
  intro fuel
  induction fuel with
  | zero =>
    intro j hj1 hj2 hfuel
    omega
  | succ f ih =>
    intro j hj1 hj2 hfuel
    have hjlen : j < c.blocks.length := by omega
    unfold rollbackGo
    split
    · rename_i bj heq
      have hbj : bj = c.blocks.get ⟨j, hjlen⟩ := by
        rw [List.get?_eq_get hjlen] at heq
        exact (Option.some.inj heq).symm
      have hbp : c.blocks.getD (j - 1) bj = c.blocks.get ⟨j - 1, by omega⟩ :=
        List.getD_eq_get c.blocks bj (by omega)
      have hlink : (c.blocks.getD (j - 1) bj).hash = bj.previous := by
        rw [hbp, hbj]
        exact chain'_link c hchain j hj1 hjlen
      have hcond : (((some hh).isNone && !(blockVerify H false bj)) ||
          (c.blocks.getD (j - 1) bj).hash != bj.previous) = false := by
        rw [hlink]
        simp
      simp only [hcond, Bool.false_eq_true, if_false]
      split
      · rename_i hmt
        have hbjh : bj.hash = hh := eq_of_beq hmt
        have hji : j = i := by
          by_contra hne
          exact hfirst j bj (by omega) heq hbjh
        subst hji
        rw [chainDelete_tail c hord (j + 1) (by omega) (by omega)]
        rfl
      · rename_i hmf
        have hji : j ≠ i := by
          intro hji
          subst hji
          have hbji : bj = bi := by
            rw [heq] at hget
            exact Option.some.inj hget
          have hbt : (bj.hash == hh) = true := by
            rw [hbji, hbh]
            simp
          exact hmf hbt
        exact ih (j + 1) (by omega) (by omega) (by omega)
    · rename_i heq
      rw [List.get?_eq_get hjlen] at heq
      exact Option.noConfusion heq

/-- C5: on an ordered, correctly linked chain containing the target hash
first at position `i`, `rollback(hash)` deletes exactly the blocks
strictly after position `i` (recording them in a DELETE log entry) and
retains the block with that hash as the new head, returning `true`. -/
theorem C5_rollback_target (H : HashFn) (c : Chain) (hh : String) (i : Nat) (bi : Block)
    (hord : c.isOrdered = true)
    (hchain : List.Chain' (fun a b => b.previous = a.hash) c.blocks)
    (hget : c.blocks.get? i = some bi)
    (hbh : bi.hash = hh)
    (hfirst : ∀ j bj, j < i → c.blocks.get? j = some bj → bj.hash ≠ hh) :
    chainRollback H c (some hh) =
      Except.ok ({ c with
                   blocks := c.blocks.take (i + 1)
                   lastOperations :=
                     c.lastOperations ++ [⟨ChainOpType.DELETE, c.blocks.drop (i + 1)⟩] },
        true) := by
  have hilen : i < c.blocks.length := by
    by_contra hcon
    rw [List.get?_eq_none.mpr (Nat.le_of_not_lt hcon)] at hget
    exact Option.noConfusion hget
  have h0 : 0 < c.blocks.length := by omega
  have hb0 : c.blocks.get? 0 = some (c.blocks.get ⟨0, h0⟩) := List.get?_eq_get h0
  unfold chainRollback
  simp only [chainOrder_of_isOrdered c hord, hord, Bool.not_true, Bool.false_eq_true,
    if_false, Option.isNone_some, Bool.false_and, hb0, Bool.false_or]
  split
  · rename_i hmt
    have hb0h : (c.blocks.get ⟨0, h0⟩).hash = hh := eq_of_beq hmt
    have hi0 : i = 0 := by
      by_contra hne
      exact hfirst 0 (c.blocks.get ⟨0, h0⟩) (by omega) hb0 hb0h
    subst hi0
    rw [chainDelete_tail c hord 1 (by omega) (by omega)]
    simp only [Except.map, hord, Nat.zero_add]
  · rename_i hmf
    have hi0 : i ≠ 0 := by
      intro hi0
      subst hi0
      have hbji : bi = c.blocks.get ⟨0, h0⟩ := by
        rw [hb0] at hget
        exact (Option.some.inj hget).symm
      have hbt : ((c.blocks.get ⟨0, h0⟩).hash == hh) = true := by
        rw [← hbji, hbh]
        simp
      exact hmf hbt
    have hgo := rollbackGo_finds H c hh i bi hord hchain hget hbh hfirst c.blocks.length 1
      (by omega) (by omega) (by omega)
    rw [hord] at hgo
    exact hgo

/-- C5 witness: rolling the five-block chain back to the genesis block's
own hash removes exactly blocks 1–4 and leaves height 1. -/
theorem C5_rollback_target_witness :
    List.Chain' (fun a b => b.previous = a.hash) chW5.blocks ∧
    chainRollback HtoyNever chW5 (some "aa") =
      Except.ok (⟨[blkG], true, [⟨ChainOpType.DELETE, [blkA, blkB, blkC, blkD]⟩]⟩, true) :=
  have hch : List.Chain' (fun a b => b.previous = a.hash) chW5.blocks := by
    simp [chW5, List.chain'_cons, blkG, blkA, blkB, blkC, blkD]
  ⟨hch,
   C5_rollback_target HtoyNever chW5 "aa" 0 blkG rfl hch rfl rfl
     (fun j bj hj _ => absurd hj (Nat.not_lt_zero j))⟩

theorem blocks_prev_unique (l : List Block) (hn : (l.map Block.previous).Nodup)
    (x y : Block) (hx : x ∈ l) (hy : y ∈ l) (hxy : x.previous = y.previous) : x = y :=
  List.inj_on_of_nodup_map hn hx hy hxy

theorem fixHeadPair_correct (prev : String) (d : Block) (c2 : List Block)
    (hl : d.previous = prev)
    (hn : (List.map Block.previous (d :: c2)).Nodup)
    (a : Block) (t : List Block) (hperm : (a :: t).Perm (d :: c2)) :
    (fixHeadPair prev a t).1 = d ∧ (fixHeadPair prev a t).2.Perm c2 := by
  by_cases ha : (a.previous == prev) = true
  · have hae : a.previous = prev := eq_of_beq ha
    have had : a = d := blocks_prev_unique (d :: c2) hn a d
      (hperm.subset (List.mem_cons_self a t)) (List.mem_cons_self d c2)
      (by rw [hae, hl])
    rw [fixHeadPair_head_match prev a t ha]
    subst had
    exact ⟨rfl, hperm.cons_inv⟩
  · have ha' : (a.previous == prev) = false := by
      cases h : (a.previous == prev)
      · rfl
      · exact absurd h ha
    have had : a ≠ d := by
      intro he
      rw [he, hl] at ha
      simp at ha
    have hdmem : d ∈ a :: t := hperm.symm.subset (List.mem_cons_self d c2)
    have hdt : d ∈ t := by
      cases List.mem_cons.mp hdmem with
      | inl h => exact absurd h.symm had
      | inr h => exact h
    cases hf : t.findIdx? (fun b => b.previous == prev) with
    | none =>
      exfalso
      have hno := List.findIdx?_eq_none_iff.mp hf d hdt
      rw [hl] at hno
      simp at hno
    | some k =>
      obtain ⟨e, hg, hp⟩ := findIdx?_get _ t k hf
      have hemem : e ∈ d :: c2 :=
        hperm.subset (List.mem_cons_of_mem a (List.get?_mem hg))
      have hed : e = d := blocks_prev_unique (d :: c2) hn e d hemem
        (List.mem_cons_self d c2) (by rw [eq_of_beq hp, hl])
      subst hed
      rw [fixHeadPair_found prev a t k e ha' hf hg]
      refine ⟨rfl, ?_⟩
      have hc : (e :: t.set k a).Perm (a :: t) := cons_set_perm t k a e hg
      exact (hc.trans hperm).cons_inv

theorem orderPhase2Go_correct : ∀ (c s : List Block) (prev : String) (fuel : Nat),
    linkedFrom prev c = true →
    (c.map Block.previous).Nodup →
    s.Perm c → s.length ≤ fuel →
    orderPhase2Go fuel prev s = c := by
  intro c
  induction c with
  | nil =>
    intro s prev fuel _ _ hperm _
    have hs : s = [] := hperm.eq_nil
    subst hs
    cases fuel <;> rfl
  | cons d c2 ih =>
    intro s prev fuel hlink hn hperm hfuel
    cases s with
    | nil =>
      exact absurd hperm.symm.eq_nil (by simp)
    | cons a t =>
      cases fuel with
      | zero => simp at hfuel
      | succ f =>
        have hlink2 : (d.previous == prev) = true ∧ linkedFrom d.hash c2 = true := by
          simpa [linkedFrom, Bool.and_eq_true] using hlink
        obtain ⟨hd1, hd2⟩ := hlink2
        obtain ⟨hfst, hsnd⟩ := fixHeadPair_correct prev d c2 (eq_of_beq hd1) hn a t hperm
        show (fixHeadPair prev a t).1 ::
          orderPhase2Go f (fixHeadPair prev a t).1.hash (fixHeadPair prev a t).2 = d :: c2
        rw [hfst]
        congr 1
        have hlen2 : (fixHeadPair prev a t).2.length = c2.length := hsnd.length_eq
        have hlent : t.length = c2.length := by
          have := hperm.length_eq
          simpa using this
        exact ih (fixHeadPair prev a t).2 d.hash f hd2 (by
            have := hn
            rw [List.map_cons] at this
            exact this.of_cons) hsnd (by
          rw [hlen2, ← hlent]
          have hfuel2 : t.length + 1 ≤ f + 1 := by simpa using hfuel
          omega)

theorem phase1_inv_done (l : List Block) (g : Block) (t : List Block) (i : Nat)
    (hperm : l.Perm (g :: t)) (hlen : l.length ≤ i)
    (hinv : l.get? 0 = some g ∨ ∃ p, i ≤ p ∧ l.get? p = some g) :
    ∃ rest, l = g :: rest ∧ rest.Perm t := by
  cases hinv with
  | inl h0 =>
    cases l with
    | nil => exact Option.noConfusion h0
    | cons a t' =>
      have hag : a = g := Option.some.inj h0
      subst hag
      exact ⟨t', rfl, hperm.cons_inv⟩
  | inr hp =>
    obtain ⟨p, hpi, hp⟩ := hp
    exfalso
    have hplen : p < l.length := by
      by_contra hcon
      rw [List.get?_eq_none.mpr (Nat.le_of_not_lt hcon)] at hp
      exact Option.noConfusion hp
    omega

theorem listSwap_zero_head (l : List Block) (i : Nat) (g : Block)
    (hgi : l.get? i = some g) : (listSwap l 0 i).get? 0 = some g := by
  cases l with
  | nil => exact Option.noConfusion hgi
  | cons a t' =>
    cases i with
    | zero =>
      have hag : a = g := Option.some.inj hgi
      subst hag
      rfl
    | succ k =>
      unfold listSwap
      rw [hgi]
      rfl

theorem orderPhase1Go_genesis :
    ∀ (fuel : Nat) (l : List Block) (i : Nat) (g : Block) (t : List Block),
      (List.map Block.previous (g :: t)).Nodup →
      g.previous = GENESIS_HASH →
      l.Perm (g :: t) →
      l.length ≤ i + fuel →
      (l.get? 0 = some g ∨ ∃ p, i ≤ p ∧ l.get? p = some g) →
      ∃ rest, orderPhase1Go l i fuel = g :: rest ∧ rest.Perm t := by
  intro fuel
  induction fuel with
  | zero =>
    intro l i g t hn hg hperm hlen hinv
    exact phase1_inv_done l g t i hperm (by omega) hinv
  | succ f ih =>
    intro l i g t hn hg hperm hlen hinv
    cases hgi : l.get? i with
    | none =>
      have hilen : l.length ≤ i := List.get?_eq_none.mp hgi
      have hres : orderPhase1Go l i (f + 1) = l := by
        show (match l.get? i with
              | some bi =>
                orderPhase1Go
                  (if (bi.previous == GENESIS_HASH) = true then listSwap l 0 i else l)
                  (i + 1) f
              | none => l) = l
        rw [hgi]
      rw [hres]
      exact phase1_inv_done l g t i hperm hilen hinv
    | some bi =>
      have hstep : orderPhase1Go l i (f + 1) =
          orderPhase1Go
            (if (bi.previous == GENESIS_HASH) = true then listSwap l 0 i else l)
            (i + 1) f := by
        show (match l.get? i with
              | some b =>
                orderPhase1Go
                  (if (b.previous == GENESIS_HASH) = true then listSwap l 0 i else l)
                  (i + 1) f
              | none => l) = _
        rw [hgi]
      rw [hstep]
      by_cases hb : (bi.previous == GENESIS_HASH) = true
      · rw [if_pos hb]
        have hbig : bi = g := blocks_prev_unique (g :: t) hn bi g
          (hperm.subset (List.get?_mem hgi)) (List.mem_cons_self g t)
          (by rw [eq_of_beq hb, hg])
        subst hbig
        have hswp : (listSwap l 0 i).Perm l := listSwap_zero_perm l i
        exact ih (listSwap l 0 i) (i + 1) bi t hn hg (hswp.trans hperm)
          (by rw [hswp.length_eq]; omega)
          (Or.inl (listSwap_zero_head l i bi hgi))
      · rw [if_neg hb]
        refine ih l (i + 1) g t hn hg hperm (by omega) ?_
        cases hinv with
        | inl h0 => exact Or.inl h0
        | inr hp =>
          obtain ⟨p, hpi, hp⟩ := hp
          refine Or.inr ⟨p, ?_, hp⟩
          rcases Nat.eq_or_lt_of_le hpi with heq | hlt
          · exfalso
            subst heq
            rw [hgi] at hp
            have : bi = g := Option.some.inj hp
            subst this
            rw [hg] at hb
            simp at hb
          · omega

theorem orderBlocks_correct (blocks : List Block) (g : Block) (t : List Block)
    (hn : (List.map Block.previous (g :: t)).Nodup)
    (hlink : linkedFrom GENESIS_HASH (g :: t) = true)
    (hperm : blocks.Perm (g :: t)) :
    orderBlocks blocks = g :: t := by
  have hlink2 : (g.previous == GENESIS_HASH) = true ∧ linkedFrom g.hash t = true := by
    simpa [linkedFrom, Bool.and_eq_true] using hlink
  have hg : g.previous = GENESIS_HASH := eq_of_beq hlink2.1
  have hgmem : g ∈ blocks := hperm.symm.subset (List.mem_cons_self g t)
  obtain ⟨p, hp⟩ := List.get?_of_mem hgmem
  obtain ⟨rest, hres, hrperm⟩ := orderPhase1Go_genesis blocks.length blocks 0 g t hn hg
    hperm (by omega) (Or.inr ⟨p, by omega, hp⟩)
  unfold orderBlocks
  rw [hres]
  show g :: orderPhase2Go rest.length g.hash rest = g :: t
  congr 1
  refine orderPhase2Go_correct t rest g.hash rest.length hlink2.2 ?_ hrperm (Nat.le_refl _)
  have := hn
  rw [List.map_cons] at this
  exact this.of_cons

/-- C4: ordering a non-empty block multiset that is a permutation of a
valid hash-linked chain (unique genesis link and unique previous-links,
expressed as distinct `previous` values) rearranges it into exactly that
chain: afterwards `blocks[0].previous` is the genesis sentinel and
`blocks[i+1].previous = blocks[i].hash` for every `i`. -/
theorem C4_order_correct (blocks c : List Block) (ops : List ChainOp)
    (hne : blocks ≠ [])
    (hperm : blocks.Perm c)
    (hlink : linkedFrom GENESIS_HASH c = true)
    (hn : (c.map Block.previous).Nodup) :
    (chainOrder ⟨blocks, false, ops⟩).blocks = c ∧
    linkedFrom GENESIS_HASH (chainOrder ⟨blocks, false, ops⟩).blocks = true := by
  cases c with
  | nil => exact absurd hperm.eq_nil hne
  | cons g t =>
    have hmain : (chainOrder ⟨blocks, false, ops⟩).blocks = g :: t := by
      unfold chainOrder
      simp only [Bool.false_eq_true, if_false]
      by_cases hlen : 1 < blocks.length
      · rw [if_pos hlen]
        exact orderBlocks_correct blocks g t hn hlink hperm
      · rw [if_neg hlen]
        have hlq : blocks.length = 1 := by
          cases hbk : blocks with
          | nil => exact absurd hbk hne
          | cons b bs =>
            subst hbk
            simp only [List.length_cons] at hlen ⊢
            omega
        obtain ⟨b, hb⟩ := List.length_eq_one.mp hlq
        subst hb
        have hlt : t = [] := by
          have hlc : (g :: t).length = 1 := by rw [← hperm.length_eq, hlq]
          simpa using hlc
        subst hlt
        have : b = g := by
          have := List.perm_singleton.mp hperm.symm
          exact (List.cons.inj this).1.symm
        rw [this]
    exact ⟨hmain, by rw [hmain]; exact hlink⟩

/-- C4 witness: the scrambled set `[blkB, blkG, blkA]` is ordered into
the valid chain `[blkG, blkA, blkB]`, whose links all check out. -/
theorem C4_order_correct_witness :
    ([blkB, blkG, blkA] : List Block).Perm [blkG, blkA, blkB] ∧
    linkedFrom GENESIS_HASH [blkG, blkA, blkB] = true ∧
    (((List.map Block.previous [blkG, blkA, blkB]).Nodup) ∧
      ((chainOrder ⟨[blkB, blkG, blkA], false, []⟩).blocks = [blkG, blkA, blkB] ∧
        linkedFrom GENESIS_HASH (chainOrder ⟨[blkB, blkG, blkA], false, []⟩).blocks = true)) :=
  ⟨by decide, by decide,
   by decide,
   C4_order_correct [blkB, blkG, blkA] [blkG, blkA, blkB] [] (by decide) (by decide)
     (by decide) (by decide)⟩
